import Mathlib

/-!
Verification development for the rag-juridique retrieval pipeline.

Shallow embedding of the core modules:
* `src/extract_pdf.py` — `PDFExtractor.clean_text`, `PDFExtractor.chunk_text`
* `src/embeddings.py`  — `EmbeddingManager.create_embeddings_batch`,
  `save_index`, `load_index`, `index_exists`
* `src/retrieval.py`   — `RAGRetriever.search`, `RAGRetriever.ask`,
  `generate_answer`

Python exceptions are modelled with `Except PyError`; the remote embedding
and generation services are oracles passed as function parameters; the
external FAISS flat index and the on-disk artifact store are modelled from
the specification (their code is not part of this repository).
-/

namespace Rag

/-- Model of the Python exception classes relevant to the embedded code.
The first three are builtins actually raised by the translated code; the
last three come from the specification's error taxonomy (§7) — the source
defines none of them, so no translated function ever produces them. -/
inductive PyError where
  | valueError
  | zeroDivisionError
  | indexError
  | fileError
  | invalidConfigError
  | indexNotFoundError
  | indexCorruptError
deriving DecidableEq

/-- Model of the chunk dictionary built by `PDFExtractor.chunk_text`
(src/extract_pdf.py lines 112-117).  The Python dict starts with keys
`text`, `chunk_id`, `start_word`, `end_word`; `process_all_pdfs` adds
`source`, and `RAGRetriever.search` adds `distance` and `rank` to a copy.
Keys that may be absent are modelled with `Option` / a default. -/
structure ChunkRec where
  text : String
  chunk_id : Nat
  start_word : Nat
  end_word : Nat
  source : String := ""
  distance : Option Int := none
  rank : Option Nat := none
deriving DecidableEq

instance : Inhabited ChunkRec := ⟨⟨"", 0, 0, 0, "", none, none⟩⟩

instance {ε α : Type} [DecidableEq ε] [DecidableEq α] :
    DecidableEq (Except ε α) := fun a b =>
  match a, b with
  | .ok x, .ok y =>
    if h : x = y then .isTrue (by rw [h]) else .isFalse (by simp [h])
  | .error x, .error y =>
    if h : x = y then .isTrue (by rw [h]) else .isFalse (by simp [h])
  | .ok _, .error _ => .isFalse (by simp)
  | .error _, .ok _ => .isFalse (by simp)

/-- Helper for `pySplit`: scans the characters, accumulating the current
word in reverse; whitespace closes the current word (if any), every other
character extends it. -/
def splitWSAux : List Char → List Char → List (List Char)
  | [], acc => if acc.isEmpty then [] else [acc.reverse]
  | c :: rest, acc =>
    if c.isWhitespace then
      if acc.isEmpty then splitWSAux rest []
      else acc.reverse :: splitWSAux rest []
    else splitWSAux rest (c :: acc)

/-- Python `str.split()` with no separator: the maximal whitespace-free
runs of the string, in order (src/extract_pdf.py line 103,
`text.split()`). -/
def pySplit (s : String) : List String :=
  (splitWSAux s.data []).map (fun l => ⟨l⟩)

/-- Python `" ".join(words)` (src/extract_pdf.py line 109). -/
def wordJoin (l : List String) : String :=
  String.intercalate " " l

/-- Ceiling division on naturals; `ceilDiv n s` is the number of iterations
of Python `range(0, n, s)` for `s > 0`. -/
def ceilDiv (n s : Nat) : Nat := (n + s - 1) / s

/-- The index sequence produced by Python `range(0, n, s)` for `s > 0`.  -/
def chunkStarts (n s : Nat) : List Nat :=
  (List.range (ceilDiv n s)).map (fun j => j * s)

/-- Model of `PDFExtractor.chunk_text` (src/extract_pdf.py lines 86-122).
Control flow of the source:
* `range(0, len(words), chunk_size - overlap)` raises `ValueError` when the
  step is zero (`chunk_size == overlap`) and is empty when the step is
  negative (`chunk_size < overlap`);
* each iteration appends a dict with `text`, `chunk_id = len(chunks)`,
  `start_word = i`, `end_word = min(i + chunk_size, len(words))`;
* after the loop, line 120 computes the mean chunk size with
  `sum(...) // len(chunks)`, which raises `ZeroDivisionError` whenever the
  chunk list is empty (empty input text, or negative step). -/
def chunk_text (text : String) (chunk_size overlap : Nat) :
    Except PyError (List ChunkRec) :=
  let words := pySplit text
  if chunk_size = overlap then .error .valueError
  else if chunk_size < overlap then .error .zeroDivisionError
  else
    let step := chunk_size - overlap
    let chunks := (List.enumFrom 0 (chunkStarts words.length step)).map
      (fun ji =>
        { text := wordJoin ((words.drop ji.2).take chunk_size)
          chunk_id := ji.1
          start_word := ji.2
          end_word := min (ji.2 + chunk_size) words.length })
    if chunks.isEmpty then .error .zeroDivisionError else .ok chunks

/-- Model of `re.sub(r'\s+', ' ', text)` (src/extract_pdf.py line 76):
every maximal run of whitespace characters becomes a single space. -/
def collapseWS : List Char → List Char
  | [] => []
  | [c] => [if c.isWhitespace then ' ' else c]
  | a :: b :: rest =>
    if a.isWhitespace && b.isWhitespace then collapseWS (b :: rest)
    else (if a.isWhitespace then ' ' else a) :: collapseWS (b :: rest)

/-- Model of Python `str.strip()` (src/extract_pdf.py line 79). -/
def pyStrip (l : List Char) : List Char :=
  ((l.dropWhile (fun c => c.isWhitespace)).reverse.dropWhile
      (fun c => c.isWhitespace)).reverse

/-- Helper for `collapseNN`: `seen` counts the consecutive newlines emitted
so far in the current newline run; from the third newline of a run onwards
the character is dropped. -/
def collapseNNAux : Nat → List Char → List Char
  | _, [] => []
  | seen, c :: rest =>
    if c = '\n' then
      if seen < 2 then c :: collapseNNAux (seen + 1) rest
      else collapseNNAux seen rest
    else c :: collapseNNAux 0 rest

/-- Model of `re.sub(r'\n\n+', '\n\n', text)` (src/extract_pdf.py line 82):
every run of two or more newlines becomes exactly two newlines. -/
def collapseNN (l : List Char) : List Char := collapseNNAux 0 l

/-- Model of `PDFExtractor.clean_text` (src/extract_pdf.py lines 62-84):
collapse whitespace runs to single spaces, strip both ends, then collapse
blank-line runs. -/
def clean_text (s : String) : String :=
  ⟨collapseNN (pyStrip (collapseWS s.data))⟩

/-- Relation stating that two adjacent characters are not both whitespace. -/
def noTwoWS (a b : Char) : Prop := (a.isWhitespace && b.isWhitespace) = false

/-- Squared Euclidean distance between two vectors (vectors are modelled as
integer lists; FAISS `IndexFlatL2` uses squared L2 distance). -/
def sqdist (q v : List Int) : Int :=
  ((q.zip v).map (fun p => (p.1 - p.2) * (p.1 - p.2))).sum

/-- Comparison of (row, distance) pairs by distance. -/
def distLE (a b : Nat × Int) : Prop := a.2 ≤ b.2

instance : DecidableRel distLE := fun a b =>
  (inferInstance : Decidable (a.2 ≤ b.2))

instance : IsTotal (Nat × Int) distLE := ⟨fun a b => Int.le_total a.2 b.2⟩

instance : IsTrans (Nat × Int) distLE := ⟨fun _ _ _ h1 h2 => le_trans h1 h2⟩

/-- Modelled from the spec: the external FAISS `IndexFlatL2.search` call
made by `RAGRetriever.search` (src/retrieval.py line 103).  The library's
code is not part of this repository; §4.4 of the spec gives its contract:
exact exhaustive search returning the `k` nearest rows by squared Euclidean
distance, ascending (closest first), as (row index, distance) pairs, and
(§8 boundary) when `k` exceeds the number of stored vectors it returns all
available rows, fewer than `k`, rather than erroring. -/
def faissSearch (E : List (List Int)) (q : List Int) (k : Nat) :
    List (Nat × Int) :=
  (List.insertionSort distLE
    ((List.range E.length).map (fun r => (r, sqdist q (E.getD r []))))).take k

/-- The retriever's shared state: the chunk list and the FAISS index held
by `RAGRetriever` (src/retrieval.py lines 45-46).  Query-time code is
translated in explicit state-passing style so that (non-)mutation of this
state is expressible. -/
structure RState where
  chunks : List ChunkRec
  index : List (List Int)
deriving DecidableEq

/-- Python list indexing `chunks[idx]` for a non-negative index: raises
`IndexError` when out of range. -/
def pyIndexNat (l : List ChunkRec) (i : Nat) : Except PyError ChunkRec :=
  if h : i < l.length then .ok (l.get ⟨i, h⟩) else .error .indexError

/-- The result loop of `RAGRetriever.search` (src/retrieval.py lines
106-111): for the `i`-th returned (row, distance) pair, take a copy of the
stored chunk dict at that row and extend the copy with `distance` and
`rank = i + 1`.  The first argument of the recursion is the running value
of `enumerate`'s counter. -/
def buildResults (chunks : List ChunkRec) : Nat → List (Nat × Int) →
    Except PyError (List ChunkRec)
  | _, [] => .ok []
  | i, p :: rest => do
    let c ← pyIndexNat chunks p.1
    let tail ← buildResults chunks (i + 1) rest
    .ok ({ c with distance := some p.2, rank := some (i + 1) } :: tail)

/-- Model of `RAGRetriever.search` (src/retrieval.py lines 79-116).  The
remote query-embedding call (`create_query_embedding`) is the oracle `e`.
The state is returned unchanged: the source never assigns to `self.chunks`
or `self.index`, and line 108 copies the stored dict before extending it. -/
def searchSt (e : String → List Int) (s : RState) (q : String) (k : Nat) :
    Except PyError (List ChunkRec × RState) := do
  let rs := faissSearch s.index (e q) k
  let results ← buildResults s.chunks 0 rs
  .ok (results, s)

/-- Token usage and text returned by the remote chat-completion service. -/
structure Completion where
  text : String
  prompt_tokens : Nat
  completion_tokens : Nat
  total_tokens : Nat

/-- The answer dictionary built by `RAGRetriever.generate_answer`
(src/retrieval.py lines 180-191). -/
structure AnswerRecord where
  query : String
  answer : String
  sources : List String
  num_chunks_used : Nat
  model : String
  tokens_prompt : Nat
  tokens_completion : Nat
  tokens_total : Nat

/-- The system instruction of `generate_answer` (src/retrieval.py lines
149-153). -/
def systemPrompt : String :=
  "Tu es un assistant juridique expert.\nRéponds UNIQUEMENT en te basant sur les extraits de documents fournis.\nSi la réponse n'est pas dans les extraits, dis clairement \"Je ne trouve pas cette information dans les documents fournis.\"\nCite toujours la source (ex: [Source: GDPR.pdf]).\nSois précis et professionnel."

/-- The context assembly loop of `generate_answer` (src/retrieval.py lines
141-145): each chunk's text prefixed with its extract number (starting at
1) and source tag. -/
def buildContext (cs : List ChunkRec) : String :=
  String.join ((List.enumFrom 1 cs).map (fun ic =>
    "[Extrait " ++ toString ic.1 ++ " - Source: " ++ ic.2.source ++ "]\n"
      ++ ic.2.text ++ "\n\n"))

/-- Model of `RAGRetriever.generate_answer` (src/retrieval.py lines
118-195); the remote chat completion is the oracle `llm`. -/
def generate_answer (llm : String → String → Completion) (q : String)
    (cs : List ChunkRec) (model : String) : AnswerRecord :=
  let context := buildContext cs
  let userPrompt :=
    "Contexte (extraits de documents juridiques) :\n\n" ++ context
      ++ "\n\nQuestion : " ++ q
      ++ "\n\nRéponds de manière claire et cite tes sources."
  let comp := llm systemPrompt userPrompt
  { query := q
    answer := comp.text
    sources := cs.map (fun c => c.source)
    num_chunks_used := cs.length
    model := model
    tokens_prompt := comp.prompt_tokens
    tokens_completion := comp.completion_tokens
    tokens_total := comp.total_tokens }

/-- Model of `RAGRetriever.ask` (src/retrieval.py lines 197-219): search,
then generate. -/
def ask (e : String → List Int) (llm : String → String → Completion)
    (s : RState) (q : String) (k : Nat) (model : String) :
    Except PyError (AnswerRecord × RState) := do
  let (rcs, s1) ← searchSt e s q k
  .ok (generate_answer llm q rcs model, s1)

/-- A query-time operation on the retriever. -/
inductive Op where
  | search (q : String) (k : Nat)
  | ask (q : String) (k : Nat) (model : String)

/-- The state after one query-time operation; a raised exception leaves the
state as it was. -/
def stepOp (e : String → List Int) (llm : String → String → Completion)
    (s : RState) : Op → RState
  | .search q k =>
    match searchSt e s q k with
    | .ok (_, s1) => s1
    | .error _ => s
  | .ask q k m =>
    match ask e llm s q k m with
    | .ok (_, s1) => s1
    | .error _ => s

/-- The state after a sequence of query-time operations. -/
def runOps (e : String → List Int) (llm : String → String → Completion)
    (s : RState) : List Op → RState
  | [] => s
  | op :: ops => runOps e llm (stepOp e llm s op) ops

/-- Modelled from the spec: one artifact of the persistent storage
collaborator (§6) — either a serialized vector structure (written by
`faiss.write_index`, read by `faiss.read_index`) or a serialized chunk
sequence (written/read with `pickle`).  Neither serializer's code is part
of this repository; serialization is modelled as the identity. -/
inductive Artifact where
  | faissFile (E : List (List Int))
  | pickleFile (cs : List ChunkRec)
deriving DecidableEq

/-- Modelled from the spec: the file system as a map from paths to
artifacts. -/
def Store := String → Option Artifact

/-- Model of `EmbeddingManager.save_index` (src/embeddings.py lines
154-185): write the FAISS index at `index_path`, then the pickled chunks
at `chunks_path` (the later write wins if the paths coincide). -/
def save_index (st : Store) (index : List (List Int)) (cs : List ChunkRec)
    (index_path chunks_path : String) : Store :=
  fun p =>
    if p = chunks_path then some (.pickleFile cs)
    else if p = index_path then some (.faissFile index)
    else st p

/-- Model of `EmbeddingManager.load_index` (src/embeddings.py lines
187-210): read the FAISS index, then the pickled chunks, and return the
pair.  A missing or ill-typed file surfaces as the underlying read error;
the source performs no validation of its own (in particular it never
compares the row counts of the two artifacts). -/
def load_index (st : Store) (index_path chunks_path : String) :
    Except PyError (List (List Int) × List ChunkRec) := do
  let index ← match st index_path with
    | some (.faissFile E) => Except.ok E
    | _ => Except.error PyError.fileError
  let cs ← match st chunks_path with
    | some (.pickleFile cs) => Except.ok cs
    | _ => Except.error PyError.fileError
  .ok (index, cs)

/-- Model of `EmbeddingManager.index_exists` (src/embeddings.py lines
212-220). -/
def index_exists (st : Store) (index_path chunks_path : String) : Bool :=
  (st index_path).isSome && (st chunks_path).isSome

/-- The batches sent by `create_embeddings_batch` (src/embeddings.py lines
99-100): `texts[i:i+B]` for `i` in `range(0, len(texts), B)`. -/
def embedBatches (texts : List String) (B : Nat) : List (List String) :=
  (chunkStarts texts.length B).map (fun i => (texts.drop i).take B)

/-- Model of `EmbeddingManager.create_embeddings_batch` (src/embeddings.py
lines 77-120).  The remote embedding service is the oracle `svc`, called
once per batch; the per-batch vector lists are concatenated in order.
`range(0, total, 0)` raises `ValueError` when the batch size is zero. -/
def create_embeddings_batch (svc : List String → List (List Int))
    (texts : List String) (B : Nat) : Except PyError (List (List Int)) :=
  if B = 0 then .error .valueError
  else .ok ((embedBatches texts B).map svc).flatten

/-- The chunk list produced on the successful path of `chunk_text`. -/
def csOf (words : List String) (chunk_size overlap : Nat) : List ChunkRec :=
  (List.enumFrom 0 (chunkStarts words.length (chunk_size - overlap))).map
    (fun ji =>
      { text := wordJoin ((words.drop ji.2).take chunk_size)
        chunk_id := ji.1
        start_word := ji.2
        end_word := min (ji.2 + chunk_size) words.length })

/-- Concrete data used by the witness theorems. -/
def demoChunk (i : Nat) : ChunkRec :=
  { text := "texte " ++ toString i, chunk_id := i, start_word := i,
    end_word := i + 1, source := "doc.pdf" }

/-- A retriever state with five aligned chunk/vector rows. -/
def demoState : RState :=
  ⟨[demoChunk 0, demoChunk 1, demoChunk 2, demoChunk 3, demoChunk 4],
   [[0, 0], [1, 1], [2, 2], [3, 3], [4, 4]]⟩

/-- A constant query-embedding oracle. -/
def demoEmbed : String → List Int := fun _ => [0, 0]

/-- A constant chat-completion oracle. -/
def demoLLM : String → String → Completion := fun _ _ => ⟨"réponse", 10, 5, 15⟩

/-- A per-text embedding function for the batch witness. -/
def demoF : String → List Int := fun t => [(t.length : Int)]

/-- A pointwise remote embedding service for the batch witness. -/
def demoSvc : List String → List (List Int) := fun ts => ts.map demoF

/-- An empty artifact store. -/
def demoStore : Store := fun _ => none

/-- A small sequence of query-time operations. -/
def demoOps : List Op := [Op.search "q" 3, Op.ask "q" 2 "gpt-4o-mini"]

/-! ## Arithmetic helpers for the `range(0, n, s)` model -/

theorem ceilDiv_pos {n s : Nat} (hn : 0 < n) (hs : 0 < s) :
    0 < ceilDiv n s := by
  unfold ceilDiv
  rw [show (0 < (n + s - 1) / s) = (1 ≤ (n + s - 1) / s) from rfl,
    Nat.le_div_iff_mul_le hs]
  omega

theorem le_ceilDiv_mul (n s : Nat) (hs : 0 < s) : n ≤ ceilDiv n s * s := by
  unfold ceilDiv
  have h1 := Nat.div_add_mod (n + s - 1) s
  have h2 := Nat.mod_lt (n + s - 1) hs
  rw [Nat.mul_comm]
  generalize hq : s * ((n + s - 1) / s) = t at h1 ⊢
  omega

theorem ceilDiv_eq_zero {n s : Nat} (hn : n = 0) (hs : 0 < s) :
    ceilDiv n s = 0 := by
  subst hn
  unfold ceilDiv
  exact Nat.div_eq_of_lt (by omega)

theorem chunkStarts_length (n s : Nat) :
    (chunkStarts n s).length = ceilDiv n s := by
  simp [chunkStarts]

theorem chunkStarts_get (n s j : Nat) (hj : j < (chunkStarts n s).length) :
    (chunkStarts n s).get ⟨j, hj⟩ = j * s := by
  simp [chunkStarts]

/-! ## Characterization of `chunk_text` -/

theorem csOf_length (words : List String) (W V : Nat) :
    (csOf words W V).length = ceilDiv words.length (W - V) := by
  simp [csOf, chunkStarts]

theorem csOf_get (words : List String) (W V j : Nat)
    (hj : j < (csOf words W V).length) :
    (csOf words W V).get ⟨j, hj⟩ =
      { text := wordJoin ((words.drop (j * (W - V))).take W)
        chunk_id := j
        start_word := j * (W - V)
        end_word := min (j * (W - V) + W) words.length } := by
  have hj' : j < ceilDiv words.length (W - V) := by
    rw [← csOf_length words W V]; exact hj
  simp [csOf, chunkStarts, List.get_eq_getElem]

theorem chunk_text_ok (text : String) (W V : Nat) (hVW : V < W)
    (hne : pySplit text ≠ []) :
    chunk_text text W V = .ok (csOf (pySplit text) W V) := by
  unfold chunk_text csOf
  have h1 : ¬ (W = V) := by omega
  have h2 : ¬ (W < V) := by omega
  simp only [if_neg h1, if_neg h2]
  rw [if_neg]
  intro habs
  rw [List.isEmpty_iff] at habs
  have hlen := congrArg List.length habs
  simp only [List.length_map, List.enumFrom_length, chunkStarts_length,
    List.length_nil] at hlen
  have hpos : 0 < ceilDiv (pySplit text).length (W - V) :=
    ceilDiv_pos (List.length_pos.mpr hne) (by omega)
  omega

/-- Claim C2 (code_bug evidence): on an empty text `chunk_text` never
returns; with the default configuration it raises `ZeroDivisionError` from
the mean-chunk-size diagnostic at src/extract_pdf.py line 120, and every
other configuration also raises (`ValueError` when the window equals the
overlap, `ZeroDivisionError` otherwise). -/
theorem chunk_text_empty_input_crashes :
    chunk_text "" 1000 200 = .error PyError.zeroDivisionError ∧
    ∀ W V : Nat, ∃ err : PyError, chunk_text "" W V = .error err := by
  refine ⟨by decide, fun W V => ?_⟩
  unfold chunk_text
  by_cases hEq : W = V
  · exact ⟨.valueError, by simp [hEq]⟩
  · by_cases hlt : W < V
    · exact ⟨.zeroDivisionError, by simp [hEq, hlt]⟩
    · refine ⟨.zeroDivisionError, ?_⟩
      simp only [if_neg hEq, if_neg hlt]
      rw [if_pos]
      rw [List.isEmpty_iff, ← List.length_eq_zero]
      have hsplit : pySplit "" = [] := rfl
      simp [hsplit, chunkStarts_length,
        ceilDiv_eq_zero (n := 0) rfl (s := W - V) (by omega)]

/-- Claim C3 (amended): for `W ≤ V` the call always raises immediately —
`ValueError` from `range(0, len(words), 0)` when `W = V`, and
`ZeroDivisionError` from the mean-chunk-size diagnostic (the range is empty,
so no chunk is built) when `W < V`; it neither loops forever nor returns a
result, but the error is a Python builtin, never an `InvalidConfigError`
(the source defines no such class). -/
theorem chunk_text_rejects_bad_config (text : String) (W V : Nat)
    (h : W ≤ V) :
    chunk_text text W V =
      .error (if W = V then PyError.valueError else PyError.zeroDivisionError)
    := by
  unfold chunk_text
  by_cases hEq : W = V
  · simp [hEq]
  · have hlt : W < V := by omega
    simp [hEq, hlt]

/-- Witness for `chunk_text_rejects_bad_config` at a concrete input. -/
theorem chunk_text_rejects_bad_config_witness :
    chunk_text "alpha beta" 2 3 =
      .error (if 2 = 3 then PyError.valueError else PyError.zeroDivisionError)
    := chunk_text_rejects_bad_config "alpha beta" 2 3 (by decide)

/-- Counterexample to claim C3 as stated: with `W = V = 2` the call raises
the builtin `ValueError` (from `range` with step zero), which is not the
`InvalidConfigError` the claim requires. -/
theorem chunk_text_raises_builtin_not_invalidConfig :
    chunk_text "a b" 2 2 = Except.error PyError.valueError ∧
    Except.error PyError.valueError ≠
      (Except.error PyError.invalidConfigError : Except PyError (List ChunkRec))
    := ⟨by decide, by decide⟩

theorem csOf_map_start (words : List String) (W V : Nat) :
    (csOf words W V).map (fun c => c.start_word) =
      chunkStarts words.length (W - V) := by
  unfold csOf
  rw [List.map_map]
  have : ((fun c : ChunkRec => c.start_word) ∘ (fun ji : Nat × Nat =>
      ({ text := wordJoin ((words.drop ji.2).take W)
         chunk_id := ji.1
         start_word := ji.2
         end_word := min (ji.2 + W) words.length } : ChunkRec))) =
      Prod.snd := rfl
  rw [this, List.enumFrom_map_snd]

/-- Claim C5: for a non-empty word sequence and `0 ≤ V < W`, the chunks
start at `0, (W-V), 2(W-V), …`, each spans `[start, min(start+W, N))`, the
ranges cover `[0, N)` with no gaps, and in the `N = 2500, W = 1000, V = 200`
scenario the starts are `[0, 800, 1600, 2400]` with the last chunk spanning
`[2400, 2500)`. -/
theorem chunk_text_coverage (text : String) (W V : Nat) (hVW : V < W)
    (hne : pySplit text ≠ []) :
    ∃ cs : List ChunkRec, chunk_text text W V = .ok cs ∧
      cs ≠ [] ∧
      (∀ j, ∀ hj : j < cs.length,
        (cs.get ⟨j, hj⟩).start_word = j * (W - V) ∧
        (cs.get ⟨j, hj⟩).end_word =
          min ((cs.get ⟨j, hj⟩).start_word + W) (pySplit text).length) ∧
      (∀ j, ∀ hj : j + 1 < cs.length,
        (cs.get ⟨j + 1, hj⟩).start_word =
          (cs.get ⟨j, by omega⟩).start_word + (W - V)) ∧
      (∀ x, x < (pySplit text).length → ∃ j, ∃ hj : j < cs.length,
        (cs.get ⟨j, hj⟩).start_word ≤ x ∧ x < (cs.get ⟨j, hj⟩).end_word) ∧
      ((pySplit text).length = 2500 → W = 1000 → V = 200 →
        cs.map (fun c => c.start_word) = [0, 800, 1600, 2400] ∧
        ∃ hcs : cs ≠ [],
          (cs.getLast hcs).start_word = 2400 ∧
          (cs.getLast hcs).end_word = 2500) := by
  have hs : 0 < W - V := by omega
  have hn : 0 < (pySplit text).length := List.length_pos.mpr hne
  have hlen : (csOf (pySplit text) W V).length =
      ceilDiv (pySplit text).length (W - V) := csOf_length _ _ _
  have hcs_ne : csOf (pySplit text) W V ≠ [] := by
    rw [← List.length_pos, hlen]
    exact ceilDiv_pos hn hs
  refine ⟨csOf (pySplit text) W V, chunk_text_ok text W V hVW hne,
    hcs_ne, ?_, ?_, ?_, ?_⟩
  · intro j hj
    rw [csOf_get]
    exact ⟨rfl, rfl⟩
  · intro j hj
    rw [csOf_get, csOf_get]
    simp [Nat.succ_mul]
  · intro x hx
    have hxlt : x < ceilDiv (pySplit text).length (W - V) * (W - V) :=
      lt_of_lt_of_le hx (le_ceilDiv_mul _ _ hs)
    have hj : x / (W - V) < (csOf (pySplit text) W V).length := by
      rw [hlen]
      exact (Nat.div_lt_iff_lt_mul hs).mpr hxlt
    refine ⟨x / (W - V), hj, ?_, ?_⟩
    · rw [csOf_get]
      exact Nat.div_mul_le_self x (W - V)
    · rw [csOf_get]
      have h1 := Nat.div_add_mod x (W - V)
      have h2 := Nat.mod_lt x hs
      rw [Nat.lt_min]
      constructor
      · rw [Nat.mul_comm]
        generalize hq : (W - V) * (x / (W - V)) = t at h1 ⊢
        omega
      · exact hx
  · intro hN hW hV
    subst hW
    subst hV
    have hmap : (csOf (pySplit text) 1000 200).map (fun c => c.start_word) =
        [0, 800, 1600, 2400] := by
      rw [csOf_map_start, hN]
      decide
    have hlen4 : (csOf (pySplit text) 1000 200).length = 4 := by
      have := congrArg List.length hmap
      simpa using this
    refine ⟨hmap, hcs_ne, ?_, ?_⟩
    · rw [List.getLast_eq_get, csOf_get, hlen4]
    · rw [List.getLast_eq_get, csOf_get, hlen4, hN]
      show ((4 - 1) * (1000 - 200) + 1000) ⊓ 2500 = 2500
      decide

/-- Witness for `chunk_text_coverage` at a concrete input: the three-word
text with `W = 2`, `V = 1`. -/
theorem chunk_text_coverage_witness :
    ∃ cs : List ChunkRec, chunk_text "a b c" 2 1 = .ok cs ∧
      cs ≠ [] ∧
      (∀ j, ∀ hj : j < cs.length,
        (cs.get ⟨j, hj⟩).start_word = j * (2 - 1) ∧
        (cs.get ⟨j, hj⟩).end_word =
          min ((cs.get ⟨j, hj⟩).start_word + 2) (pySplit "a b c").length) ∧
      (∀ j, ∀ hj : j + 1 < cs.length,
        (cs.get ⟨j + 1, hj⟩).start_word =
          (cs.get ⟨j, by omega⟩).start_word + (2 - 1)) ∧
      (∀ x, x < (pySplit "a b c").length → ∃ j, ∃ hj : j < cs.length,
        (cs.get ⟨j, hj⟩).start_word ≤ x ∧ x < (cs.get ⟨j, hj⟩).end_word) ∧
      ((pySplit "a b c").length = 2500 → 2 = 1000 → 1 = 200 →
        cs.map (fun c => c.start_word) = [0, 800, 1600, 2400] ∧
        ∃ hcs : cs ≠ [],
          (cs.getLast hcs).start_word = 2400 ∧
          (cs.getLast hcs).end_word = 2500) :=
  chunk_text_coverage "a b c" 2 1 (by decide) (by decide)

/-! ## Properties of the search path -/

theorem faissSearch_mem {E : List (List Int)} {q : List Int} {k : Nat}
    {p : Nat × Int} (hp : p ∈ faissSearch E q k) :
    p.1 < E.length ∧ p.2 = sqdist q (E.getD p.1 []) := by
  unfold faissSearch at hp
  have h1 := (List.take_sublist k _).mem hp
  rw [List.mem_insertionSort] at h1
  obtain ⟨r, hr, hpr⟩ := List.mem_map.mp h1
  rw [List.mem_range] at hr
  rw [← hpr]
  exact ⟨hr, rfl⟩

theorem faissSearch_length (E : List (List Int)) (q : List Int) (k : Nat) :
    (faissSearch E q k).length = min k E.length := by
  unfold faissSearch
  rw [List.length_take, List.length_insertionSort, List.length_map,
    List.length_range]

theorem faissSearch_sorted (E : List (List Int)) (q : List Int) (k : Nat) :
    List.Pairwise distLE (faissSearch E q k) :=
  List.Pairwise.sublist (List.take_sublist k _)
    (List.sorted_insertionSort distLE _)

theorem buildResults_ok (chunks : List ChunkRec) (rs : List (Nat × Int)) :
    ∀ i : Nat, (∀ p ∈ rs, p.1 < chunks.length) →
      buildResults chunks i rs =
        .ok ((List.enumFrom i rs).map (fun jp =>
          { chunks.getD jp.2.1 default with
              distance := some jp.2.2, rank := some (jp.1 + 1) })) := by
  induction rs with
  | nil => intro i _; rfl
  | cons p rest ih =>
    intro i h
    have hp : p.1 < chunks.length := h p (List.mem_cons_self _ _)
    have hstep := ih (i + 1) (fun x hx => h x (List.mem_cons_of_mem _ hx))
    have hgd : chunks.getD p.1 default = chunks.get ⟨p.1, hp⟩ := by
      rw [List.getD_eq_getElem _ _ hp]
      rfl
    unfold buildResults
    rw [show pyIndexNat chunks p.1 = .ok (chunks.get ⟨p.1, hp⟩) from
      dif_pos hp, hstep, List.enumFrom_cons, List.map_cons]
    refine congrArg Except.ok ?_
    simp only [hgd]

theorem searchSt_eq (e : String → List Int) (s : RState) (q : String)
    (k : Nat) (hlen : s.chunks.length = s.index.length) :
    searchSt e s q k =
      .ok ((List.enumFrom 0 (faissSearch s.index (e q) k)).map
        (fun jp => { s.chunks.getD jp.2.1 default with
          distance := some jp.2.2, rank := some (jp.1 + 1) }), s) := by
  show (do
    let results ← buildResults s.chunks 0 (faissSearch s.index (e q) k)
    Except.ok (results, s)) = _
  rw [buildResults_ok s.chunks (faissSearch s.index (e q) k) 0
    (fun p hp => by rw [hlen]; exact (faissSearch_mem hp).1)]
  rfl

/-- Claim C1: with chunks and vectors aligned by position, `search` only
produces row indices `r` with `r < len(C)`, the chunk data in the result
for row `r` is `C[r]` (extended with `distance` and `rank` on a copy), and
the result has `min k N` entries — in particular, when `k` exceeds the
number of stored vectors all available rows are returned, fewer than `k`,
without error. -/
theorem search_ordinal_alignment (e : String → List Int) (s : RState)
    (q : String) (k : Nat) (hlen : s.chunks.length = s.index.length) :
    ∃ results, searchSt e s q k = .ok (results, s) ∧
      results.length = min k s.index.length ∧
      (∀ p ∈ faissSearch s.index (e q) k, p.1 < s.chunks.length) ∧
      (∀ j, ∀ hj : j < results.length, ∃ r : Nat, ∃ d : Int,
        r < s.chunks.length ∧
        (faissSearch s.index (e q) k).get? j = some (r, d) ∧
        results.get ⟨j, hj⟩ =
          { s.chunks.getD r default with
              distance := some d, rank := some (j + 1) }) := by
  refine ⟨_, searchSt_eq e s q k hlen, ?_, ?_, ?_⟩
  · rw [List.length_map, List.enumFrom_length, faissSearch_length]
  · intro p hp
    rw [hlen]
    exact (faissSearch_mem hp).1
  · intro j hj
    have hjr : j < (faissSearch s.index (e q) k).length := by
      rw [List.length_map, List.enumFrom_length] at hj
      exact hj
    have hmem : (faissSearch s.index (e q) k).get ⟨j, hjr⟩ ∈
        faissSearch s.index (e q) k := List.get_mem _ j hjr
    refine ⟨((faissSearch s.index (e q) k).get ⟨j, hjr⟩).1,
      ((faissSearch s.index (e q) k).get ⟨j, hjr⟩).2, ?_, ?_, ?_⟩
    · rw [hlen]
      exact (faissSearch_mem hmem).1
    · rw [List.get?_eq_get hjr]
    · simp only [List.get_eq_getElem, List.getElem_map,
        List.getElem_enumFrom, Nat.zero_add]

/-- Witness for `search_ordinal_alignment`: a five-chunk state queried with
`k = 7 > 5`. -/
theorem search_ordinal_alignment_witness :
    ∃ results, searchSt demoEmbed demoState "q" 7 = .ok (results, demoState) ∧
      results.length = min 7 demoState.index.length ∧
      (∀ p ∈ faissSearch demoState.index (demoEmbed "q") 7,
        p.1 < demoState.chunks.length) ∧
      (∀ j, ∀ hj : j < results.length, ∃ r : Nat, ∃ d : Int,
        r < demoState.chunks.length ∧
        (faissSearch demoState.index (demoEmbed "q") 7).get? j = some (r, d) ∧
        results.get ⟨j, hj⟩ =
          { demoState.chunks.getD r default with
              distance := some d, rank := some (j + 1) }) :=
  search_ordinal_alignment demoEmbed demoState "q" 7 rfl

/-- Claim C6: for `k` at most the stored vector count, `search` returns
exactly `k` results, ranked `1..k` in order, with distances equal to the
squared Euclidean distance from the query to a stored vector, in
non-decreasing order. -/
theorem search_distance_ordering (e : String → List Int) (s : RState)
    (q : String) (k : Nat) (hlen : s.chunks.length = s.index.length)
    (hk : k ≤ s.index.length) :
    ∃ results, searchSt e s q k = .ok (results, s) ∧
      results.length = k ∧
      (∀ j, ∀ hj : j < results.length,
        (results.get ⟨j, hj⟩).rank = some (j + 1)) ∧
      (∀ j, ∀ hj : j < results.length, ∃ r, r < s.index.length ∧
        (results.get ⟨j, hj⟩).distance =
          some (sqdist (e q) (s.index.getD r []))) ∧
      List.Chain' (fun a b : ChunkRec =>
        a.distance.getD 0 ≤ b.distance.getD 0) results := by
  have hrslen : (faissSearch s.index (e q) k).length = k := by
    rw [faissSearch_length]
    exact Nat.min_eq_left hk
  refine ⟨_, searchSt_eq e s q k hlen, ?_, ?_, ?_, ?_⟩
  · rw [List.length_map, List.enumFrom_length, hrslen]
  · intro j hj
    simp only [List.get_eq_getElem, List.getElem_map, List.getElem_enumFrom,
      Nat.zero_add]
  · intro j hj
    have hjr : j < (faissSearch s.index (e q) k).length := by
      rw [List.length_map, List.enumFrom_length] at hj
      exact hj
    have hmem : (faissSearch s.index (e q) k).get ⟨j, hjr⟩ ∈
        faissSearch s.index (e q) k := List.get_mem _ j hjr
    obtain ⟨hr1, hr2⟩ := faissSearch_mem hmem
    refine ⟨((faissSearch s.index (e q) k).get ⟨j, hjr⟩).1, hr1, ?_⟩
    simp only [List.get_eq_getElem, List.getElem_map, List.getElem_enumFrom]
    exact congrArg some hr2
  · rw [List.chain'_iff_get]
    intro j hj
    rw [List.length_map, List.enumFrom_length] at hj
    have hch := (faissSearch_sorted s.index (e q) k).chain'
    rw [List.chain'_iff_get] at hch
    have := hch j hj
    simp only [List.get_eq_getElem, List.getElem_map, List.getElem_enumFrom]
    exact this

/-- Witness for `search_distance_ordering`: five stored chunks, `k = 3`, as
in the spec's scenario. -/
theorem search_distance_ordering_witness :
    ∃ results, searchSt demoEmbed demoState "q" 3 = .ok (results, demoState) ∧
      results.length = 3 ∧
      (∀ j, ∀ hj : j < results.length,
        (results.get ⟨j, hj⟩).rank = some (j + 1)) ∧
      (∀ j, ∀ hj : j < results.length, ∃ r, r < demoState.index.length ∧
        (results.get ⟨j, hj⟩).distance =
          some (sqdist (demoEmbed "q") (demoState.index.getD r []))) ∧
      List.Chain' (fun a b : ChunkRec =>
        a.distance.getD 0 ≤ b.distance.getD 0) results :=
  search_distance_ordering demoEmbed demoState "q" 3 rfl (by decide)

/-! ## Frame property of the query path -/

theorem buildResults_mem (chunks : List ChunkRec) :
    ∀ (rs : List (Nat × Int)) (i : Nat) (out : List ChunkRec),
      buildResults chunks i rs = .ok out →
      ∀ r ∈ out, ∃ c ∈ chunks, ∃ d : Int, ∃ n2 : Nat,
        r = { c with distance := some d, rank := some n2 } := by
  intro rs
  induction rs with
  | nil =>
    intro i out h r hr
    unfold buildResults at h
    cases h
    cases hr
  | cons p rest ih =>
    intro i out h r hr
    unfold buildResults at h
    by_cases hp : p.1 < chunks.length
    · rw [show pyIndexNat chunks p.1 = .ok (chunks.get ⟨p.1, hp⟩) from
        dif_pos hp] at h
      cases hbr : buildResults chunks (i + 1) rest with
      | error err =>
        rw [hbr] at h
        cases h
      | ok tail =>
        rw [hbr] at h
        cases h
        cases hr with
        | head =>
          exact ⟨chunks.get ⟨p.1, hp⟩, List.get_mem chunks p.1 hp, p.2,
            i + 1, rfl⟩
        | tail _ htail => exact ih (i + 1) tail hbr r htail
    · rw [show pyIndexNat chunks p.1 = .error .indexError from
        dif_neg hp] at h
      cases h

theorem searchSt_state (e : String → List Int) (s : RState) (q : String)
    (k : Nat) (rcs : List ChunkRec) (s1 : RState)
    (h : searchSt e s q k = .ok (rcs, s1)) :
    s1 = s ∧ buildResults s.chunks 0 (faissSearch s.index (e q) k) =
      .ok rcs := by
  have h2 : (do
      let results ← buildResults s.chunks 0 (faissSearch s.index (e q) k)
      Except.ok (results, s)) = Except.ok (rcs, s1) := h
  cases hbr : buildResults s.chunks 0 (faissSearch s.index (e q) k) with
  | error err => rw [hbr] at h2; cases h2
  | ok out =>
    rw [hbr] at h2
    cases h2
    exact ⟨rfl, rfl⟩

theorem ask_state (e : String → List Int)
    (llm : String → String → Completion) (s : RState) (q : String) (k : Nat)
    (m : String) (a : AnswerRecord) (s1 : RState)
    (h : ask e llm s q k m = .ok (a, s1)) : s1 = s := by
  have h2 : (do
      let p ← searchSt e s q k
      Except.ok (generate_answer llm q p.1 m, p.2)) = Except.ok (a, s1) := h
  cases hs : searchSt e s q k with
  | error err => rw [hs] at h2; cases h2
  | ok p =>
    rw [hs] at h2
    cases h2
    exact (searchSt_state e s q k p.1 p.2 hs).1

theorem stepOp_id (e : String → List Int)
    (llm : String → String → Completion) (s : RState) (op : Op) :
    stepOp e llm s op = s := by
  cases op with
  | search q k =>
    cases hs : searchSt e s q k with
    | error err => simp only [stepOp, hs]
    | ok p =>
      obtain ⟨rcs, s1⟩ := p
      simp only [stepOp, hs]
      exact (searchSt_state e s q k rcs s1 hs).1
  | ask q k m =>
    cases ha : ask e llm s q k m with
    | error err => simp only [stepOp, ha]
    | ok p =>
      obtain ⟨a, s1⟩ := p
      simp only [stepOp, ha]
      exact ask_state e llm s q k m a s1 ha

/-- Claim C9: no query-time operation mutates the retriever's shared state.
Any sequence of `search`/`ask` calls leaves the chunk list and the vector
index exactly as they were; a successful `search` returns copies of stored
chunk records extended with `distance` and `rank`, while the stored records
themselves keep those fields absent exactly as before. -/
theorem retriever_state_readonly (e : String → List Int)
    (llm : String → String → Completion) (ops : List Op) (s : RState) :
    runOps e llm s ops = s ∧
    (∀ q k rcs s1, searchSt e s q k = .ok (rcs, s1) →
      s1 = s ∧ ∀ r ∈ rcs, ∃ c ∈ s.chunks, ∃ d : Int, ∃ n2 : Nat,
        r = { c with distance := some d, rank := some n2 }) ∧
    (∀ q k m a s1, ask e llm s q k m = .ok (a, s1) → s1 = s) := by
  refine ⟨?_, ?_, ?_⟩
  · induction ops generalizing s with
    | nil => rfl
    | cons op rest ih =>
      show runOps e llm (stepOp e llm s op) rest = s
      rw [stepOp_id]
      exact ih s
  · intro q k rcs s1 h
    obtain ⟨hs1, hbr⟩ := searchSt_state e s q k rcs s1 h
    exact ⟨hs1, buildResults_mem s.chunks _ 0 rcs hbr⟩
  · intro q k m a s1 h
    exact ask_state e llm s q k m a s1 h

/-! ## Persistence: `load_index` behaviour and the save/load round trip -/

/-- Claim C4 (amended): `load_index` performs no validation of its own — a
missing artifact surfaces as the underlying read error (no
`IndexNotFoundError` exists anywhere in the source), and when both
artifacts are present it returns them as they are, even when their row
counts disagree (no `IndexCorruptError` is ever raised). -/
theorem load_index_no_validation (st : Store) (ip cp : String)
    (E : List (List Int)) (cs : List ChunkRec)
    (hE : st ip = some (.faissFile E)) (hcs : st cp = some (.pickleFile cs)) :
    load_index st ip cp = .ok (E, cs) ∧
    (∀ st2 : Store, ∀ p1 p2 : String, st2 p1 = none →
      load_index st2 p1 p2 = .error .fileError) ∧
    (∀ st3 : Store, ∀ p1 p2 : String, ∀ E3 : List (List Int),
      st3 p1 = some (.faissFile E3) → st3 p2 = none →
      load_index st3 p1 p2 = .error .fileError) := by
  refine ⟨?_, ?_, ?_⟩
  · simp only [load_index, hE, hcs]
    rfl
  · intro st2 p1 p2 h1
    simp only [load_index, h1]
    rfl
  · intro st3 p1 p2 E3 h1 h2
    simp only [load_index, h1, h2]
    rfl

/-- Witness for `load_index_no_validation`: a store holding one vector but
two chunks — `load_index` still succeeds on it. -/
theorem load_index_no_validation_witness :
    load_index (save_index demoStore [[0]] [demoChunk 0, demoChunk 1]
        "index/legal.faiss" "index/chunks.pkl")
      "index/legal.faiss" "index/chunks.pkl" =
        .ok ([[0]], [demoChunk 0, demoChunk 1]) ∧
    (∀ st2 : Store, ∀ p1 p2 : String, st2 p1 = none →
      load_index st2 p1 p2 = .error .fileError) ∧
    (∀ st3 : Store, ∀ p1 p2 : String, ∀ E3 : List (List Int),
      st3 p1 = some (.faissFile E3) → st3 p2 = none →
      load_index st3 p1 p2 = .error .fileError) :=
  load_index_no_validation _ "index/legal.faiss" "index/chunks.pkl"
    [[0]] [demoChunk 0, demoChunk 1] (by decide) (by decide)

/-- Counterexample to claim C4 as stated: saving one vector alongside two
chunks and loading the pair back succeeds — the artifacts disagree in row
count, yet no `IndexCorruptError` (indeed no error at all) is raised. -/
theorem load_index_mismatch_no_error :
    load_index (save_index demoStore [[0]] [demoChunk 0, demoChunk 1]
        "index/legal.faiss" "index/chunks.pkl")
      "index/legal.faiss" "index/chunks.pkl" =
        .ok ([[0]], [demoChunk 0, demoChunk 1]) ∧
    ([[0]] : List (List Int)).length ≠ [demoChunk 0, demoChunk 1].length :=
  ⟨by decide, by decide⟩

/-- Claim C8: saving an index/chunk pair and loading it back yields a pair
on which `search` gives exactly the same results as on the original, for
every query-embedding oracle, query and `k`. -/
theorem save_load_search_roundtrip (st : Store) (E : List (List Int))
    (cs : List ChunkRec) (ip cp : String) (hne : ip ≠ cp) :
    ∃ E2 cs2,
      load_index (save_index st E cs ip cp) ip cp = .ok (E2, cs2) ∧
      ∀ e : String → List Int, ∀ q : String, ∀ k : Nat,
        searchSt e ⟨cs2, E2⟩ q k = searchSt e ⟨cs, E⟩ q k := by
  refine ⟨E, cs, ?_, fun _ _ _ => rfl⟩
  have h1 : save_index st E cs ip cp ip = some (.faissFile E) := by
    simp [save_index, hne]
  have h2 : save_index st E cs ip cp cp = some (.pickleFile cs) := by
    simp [save_index]
  simp only [load_index, h1, h2]
  rfl

/-- Witness for `save_load_search_roundtrip` at the default artifact
paths. -/
theorem save_load_search_roundtrip_witness :
    ∃ E2 cs2,
      load_index (save_index demoStore [[0, 0], [1, 1]]
          [demoChunk 0, demoChunk 1] "index/legal.faiss" "index/chunks.pkl")
        "index/legal.faiss" "index/chunks.pkl" = .ok (E2, cs2) ∧
      ∀ e : String → List Int, ∀ q : String, ∀ k : Nat,
        searchSt e ⟨cs2, E2⟩ q k =
          searchSt e ⟨[demoChunk 0, demoChunk 1], [[0, 0], [1, 1]]⟩ q k :=
  save_load_search_roundtrip demoStore [[0, 0], [1, 1]]
    [demoChunk 0, demoChunk 1] "index/legal.faiss" "index/chunks.pkl"
    (by decide)

/-! ## Batch embedding -/

theorem ceilDiv_sub_step {n B c : Nat} (hB : 0 < B)
    (h : ceilDiv n B = c + 1) : ceilDiv (n - B) B = c := by
  unfold ceilDiv at *
  by_cases hnB : n ≤ B
  · have h0 : n - B = 0 := by omega
    rw [h0]
    have hz : (0 + B - 1) / B = 0 := Nat.div_eq_of_lt (by omega)
    rw [hz]
    have hlt : (n + B - 1) / B < 2 :=
      (Nat.div_lt_iff_lt_mul hB).mpr (by omega)
    omega
  · have e1 : n - B + B - 1 = n - 1 := by omega
    have e2 : n + B - 1 = (n - 1) + B := by omega
    rw [e1]
    rw [e2, Nat.add_div_right _ hB] at h
    omega

theorem flatten_range_batches {α : Type} (B : Nat) (hB : 0 < B) :
    ∀ (c : Nat) (l : List α), ceilDiv l.length B = c →
      ((List.range c).map (fun j => ((l.drop (j * B)).take B))).flatten = l
      := by
  intro c
  induction c with
  | zero =>
    intro l hc
    have hlen : l.length = 0 := by
      unfold ceilDiv at hc
      have := (Nat.div_eq_zero_iff hB).mp hc
      omega
    rw [List.length_eq_zero] at hlen
    rw [hlen]
    rfl
  | succ c ih =>
    intro l hc
    rw [List.range_succ_eq_map, List.map_cons, List.flatten_cons,
      List.map_map]
    have hmap : (List.range c).map
        ((fun j => (l.drop (j * B)).take B) ∘ Nat.succ) =
        (List.range c).map (fun j => (((l.drop B).drop (j * B)).take B)) := by
      apply List.map_congr_left
      intro j _
      show (l.drop (Nat.succ j * B)).take B = _
      rw [Nat.succ_mul, Nat.add_comm, ← List.drop_drop]
    rw [hmap, ih (l.drop B) (by
      rw [List.length_drop]
      exact ceilDiv_sub_step hB hc)]
    show (l.drop (0 * B)).take B ++ l.drop B = l
    rw [Nat.zero_mul, List.drop_zero]
    exact List.take_append_drop B l

/-- Claim C7: with the remote service modelled as a pointwise embedding
function, `create_embeddings_batch` returns one vector per input text in
input order, issuing `ceil(len(texts)/B)` service calls (the elements of
`embedBatches`), each carrying at most `B` texts. -/
theorem create_embeddings_batch_spec (svc : List String → List (List Int))
    (f : String → List Int) (texts : List String) (B : Nat)
    (hsvc : ∀ ts, svc ts = ts.map f) (hB : 0 < B) :
    create_embeddings_batch svc texts B = .ok (texts.map f) ∧
    (embedBatches texts B).length = ceilDiv texts.length B ∧
    (∀ b ∈ embedBatches texts B, b.length ≤ B) := by
  refine ⟨?_, ?_, ?_⟩
  · unfold create_embeddings_batch
    rw [if_neg (by omega)]
    have hsvcmap : (embedBatches texts B).map svc =
        (embedBatches texts B).map (fun b => b.map f) :=
      List.map_congr_left (fun b _ => hsvc b)
    rw [hsvcmap]
    unfold embedBatches chunkStarts
    rw [List.map_map, List.map_map]
    refine congrArg Except.ok ?_
    rw [show (List.range (ceilDiv texts.length B)).map
        (((fun b : List String => b.map f) ∘
          (fun i => (texts.drop i).take B)) ∘ (fun j => j * B)) =
        ((List.range (ceilDiv texts.length B)).map
          (fun j => ((texts.drop (j * B)).take B))).map
            (fun b : List String => b.map f) by
      rw [List.map_map]; rfl]
    rw [← List.map_flatten,
      flatten_range_batches B hB (ceilDiv texts.length B) texts rfl]
  · unfold embedBatches
    rw [List.length_map, chunkStarts_length]
  · intro b hb
    obtain ⟨i, _, hib⟩ := List.mem_map.mp hb
    rw [← hib]
    exact List.length_take_le B _

/-- Witness for `create_embeddings_batch_spec`: three texts, batch size
two. -/
theorem create_embeddings_batch_spec_witness :
    create_embeddings_batch demoSvc ["aa", "b", "ccc"] 2 =
      .ok (["aa", "b", "ccc"].map demoF) ∧
    (embedBatches ["aa", "b", "ccc"] 2).length =
      ceilDiv (["aa", "b", "ccc"] : List String).length 2 ∧
    (∀ b ∈ embedBatches ["aa", "b", "ccc"] 2, b.length ≤ 2) :=
  create_embeddings_batch_spec demoSvc demoF ["aa", "b", "ccc"] 2
    (fun _ => rfl) (by decide)


/-! ## Normalization properties of `clean_text` -/

theorem collapseWS_mem : ∀ l : List Char, ∀ c ∈ collapseWS l,
    c = ' ' ∨ c.isWhitespace = false := by
  intro l
  induction l with
  | nil => intro c hc; cases hc
  | cons a t ih =>
    cases t with
    | nil =>
      intro c hc
      simp only [collapseWS, List.mem_singleton] at hc
      subst hc
      by_cases ha : a.isWhitespace
      · left; simp [ha]
      · right; simp only [if_neg ha]; simpa using ha
    | cons b rest =>
      intro c hc
      simp only [collapseWS] at hc
      by_cases hab : (a.isWhitespace && b.isWhitespace) = true
      · rw [if_pos hab] at hc
        exact ih c hc
      · rw [if_neg hab] at hc
        rcases List.mem_cons.mp hc with hhead | htail
        · subst hhead
          by_cases ha : a.isWhitespace
          · left; simp [ha]
          · right; simp only [if_neg ha]; simpa using ha
        · exact ih c htail

theorem collapseWS_head? : ∀ l : List Char,
    (collapseWS l).head? =
      l.head?.map (fun c => if c.isWhitespace then ' ' else c) := by
  intro l
  induction l with
  | nil => rfl
  | cons a t ih =>
    cases t with
    | nil => rfl
    | cons b rest =>
      simp only [collapseWS]
      by_cases hab : (a.isWhitespace && b.isWhitespace) = true
      · rw [if_pos hab, ih]
        have ha : a.isWhitespace = true := by
          rcases Bool.and_eq_true_iff.mp hab with ⟨h1, _⟩; exact h1
        have hb : b.isWhitespace = true := by
          rcases Bool.and_eq_true_iff.mp hab with ⟨_, h2⟩; exact h2
        simp [ha, hb]
      · rw [if_neg hab]
        simp

theorem collapseWS_chain' : ∀ l : List Char,
    List.Chain' noTwoWS (collapseWS l) := by
  intro l
  induction l with
  | nil => exact List.chain'_nil
  | cons a t ih =>
    cases t with
    | nil =>
      simp only [collapseWS]
      exact List.chain'_singleton _
    | cons b rest =>
      simp only [collapseWS]
      by_cases hab : (a.isWhitespace && b.isWhitespace) = true
      · rw [if_pos hab]
        exact ih
      · rw [if_neg hab]
        refine List.chain'_cons'.mpr ⟨?_, ih⟩
        intro y hy
        rw [collapseWS_head?] at hy
        rw [Option.mem_def] at hy
        have hy3 : (if b.isWhitespace then ' ' else b) = y :=
          Option.some_inj.mp hy
        subst hy3
        by_cases ha : a.isWhitespace
        · have hb : b.isWhitespace = false := by
            rcases Bool.and_eq_true_iff.not.mp hab with h
            by_cases hbb : b.isWhitespace
            · exact absurd ⟨by simpa using ha, by simpa using hbb⟩ h
            · simpa using hbb
          rw [if_pos ha, if_neg (by simp [hb])]
          show (Char.isWhitespace ' ' && b.isWhitespace) = false
          rw [hb, Bool.and_false]
        · rw [if_neg ha]
          show (a.isWhitespace && _) = false
          have : a.isWhitespace = false := by simpa using ha
          rw [this, Bool.false_and]

theorem collapseWS_eq_self : ∀ l : List Char,
    (∀ c ∈ l, c.isWhitespace = true → c = ' ') →
    List.Chain' noTwoWS l → collapseWS l = l := by
  intro l
  induction l with
  | nil => intro _ _; rfl
  | cons a t ih =>
    cases t with
    | nil =>
      intro hc _
      simp only [collapseWS]
      by_cases ha : a.isWhitespace
      · rw [if_pos ha, hc a (List.mem_singleton_self a) (by simpa using ha)]
      · rw [if_neg ha]
    | cons b rest =>
      intro hc hch
      obtain ⟨hab, hch'⟩ := List.chain'_cons.mp hch
      simp only [collapseWS]
      have hab' : ¬ ((a.isWhitespace && b.isWhitespace) = true) := by
        rw [noTwoWS] at hab
        simp [hab]
      rw [if_neg hab']
      have hhead : (if a.isWhitespace then ' ' else a) = a := by
        by_cases ha : a.isWhitespace
        · rw [if_pos ha,
            hc a (List.mem_cons_self a _) (by simpa using ha)]
        · rw [if_neg ha]
      rw [hhead, ih (fun x hx hw => hc x (List.mem_cons_of_mem a hx) hw) hch']

theorem collapseWS_no_newline (l : List Char) : '\n' ∉ collapseWS l := by
  intro hm
  rcases collapseWS_mem l '\n' hm with h | h
  · exact absurd h (by decide)
  · exact absurd h (by decide)

theorem chain'_dropWhile {p : Char → Bool} :
    ∀ l : List Char, List.Chain' noTwoWS l →
      List.Chain' noTwoWS (l.dropWhile p) := by
  intro l
  induction l with
  | nil => intro h; exact h
  | cons a t ih =>
    intro h
    by_cases ha : p a
    · rw [List.dropWhile_cons_of_pos ha]
      exact ih h.tail
    · rw [List.dropWhile_cons_of_neg ha]
      exact h

theorem head?_dropWhile_false (p : Char → Bool) :
    ∀ l : List Char, ∀ a, (l.dropWhile p).head? = some a → p a = false := by
  intro l
  induction l with
  | nil => intro a h; cases h
  | cons c t ih =>
    intro a h
    by_cases hcp : p c
    · rw [List.dropWhile_cons_of_pos hcp] at h
      exact ih a h
    · rw [List.dropWhile_cons_of_neg hcp] at h
      rw [List.head?_cons, Option.some_inj] at h
      subst h
      simpa using hcp

theorem dropWhile_eq_self_of_head (p : Char → Bool) (l : List Char)
    (h : ∀ a, l.head? = some a → p a = false) : l.dropWhile p = l := by
  cases l with
  | nil => rfl
  | cons c t =>
    have hce := h c rfl
    rw [List.dropWhile_cons_of_neg (by simp [hce])]

theorem pyStrip_mem {c : Char} {l : List Char} (h : c ∈ pyStrip l) :
    c ∈ l := by
  unfold pyStrip at h
  rw [List.mem_reverse] at h
  have h2 := (List.dropWhile_sublist _).mem h
  rw [List.mem_reverse] at h2
  exact (List.dropWhile_sublist _).mem h2

theorem noTwoWS_symm {a b : Char} (h : noTwoWS a b) : noTwoWS b a := by
  unfold noTwoWS at *
  rwa [Bool.and_comm]

theorem chain'_reverse_noTwoWS {l : List Char}
    (h : List.Chain' noTwoWS l) : List.Chain' noTwoWS l.reverse :=
  List.chain'_reverse.mpr (h.imp (fun _ _ hab => noTwoWS_symm hab))

theorem chain'_pyStrip (l : List Char) (h : List.Chain' noTwoWS l) :
    List.Chain' noTwoWS (pyStrip l) :=
  chain'_reverse_noTwoWS
    (chain'_dropWhile _ (chain'_reverse_noTwoWS (chain'_dropWhile _ h)))

theorem pyStrip_head_false (l : List Char) :
    ∀ a, (pyStrip l).head? = some a → a.isWhitespace = false := by
  intro a ha
  unfold pyStrip at ha
  set m := l.dropWhile (fun c => c.isWhitespace) with hm
  obtain ⟨t, ht⟩ :=
    List.dropWhile_suffix (l := m.reverse) (fun c => c.isWhitespace)
  have hm_eq : m =
      (m.reverse.dropWhile (fun c => c.isWhitespace)).reverse ++
        t.reverse := by
    have h2 := congrArg List.reverse ht
    rw [List.reverse_append, List.reverse_reverse] at h2
    exact h2.symm
  have hmhead : m.head? = some a := by
    rw [hm_eq]
    cases hxr : (m.reverse.dropWhile (fun c => c.isWhitespace)).reverse with
    | nil => rw [hxr] at ha; cases ha
    | cons b r =>
      rw [hxr, List.head?_cons, Option.some_inj] at ha
      subst ha
      rfl
  exact head?_dropWhile_false _ l a hmhead

theorem pyStrip_getLast_false (l : List Char) :
    ∀ a, (pyStrip l).getLast? = some a → a.isWhitespace = false := by
  intro a ha
  unfold pyStrip at ha
  rw [List.getLast?_reverse] at ha
  exact head?_dropWhile_false _ _ a ha

theorem pyStrip_eq_self (l : List Char)
    (hh : ∀ a, l.head? = some a → a.isWhitespace = false)
    (hl : ∀ a, l.getLast? = some a → a.isWhitespace = false) :
    pyStrip l = l := by
  unfold pyStrip
  rw [dropWhile_eq_self_of_head _ l hh]
  rw [dropWhile_eq_self_of_head _ l.reverse (fun a ha => by
    rw [List.head?_reverse] at ha
    exact hl a ha)]
  exact List.reverse_reverse l

theorem collapseNNAux_eq_self :
    ∀ l : List Char, '\n' ∉ l → ∀ seen, collapseNNAux seen l = l := by
  intro l
  induction l with
  | nil => intro _ _; rfl
  | cons c t ih =>
    intro h seen
    have hc : ¬ (c = '\n') := fun hc => h (hc ▸ List.mem_cons_self c t)
    unfold collapseNNAux
    rw [if_neg hc, ih (fun hm => h (List.mem_cons_of_mem c hm)) 0]

theorem collapseNN_eq_self (l : List Char) (h : '\n' ∉ l) :
    collapseNN l = l :=
  collapseNNAux_eq_self l h 0

theorem clean_text_data (s : String) :
    (clean_text s).data = pyStrip (collapseWS s.data) := by
  have hnl : '\n' ∉ pyStrip (collapseWS s.data) := fun hm =>
    collapseWS_no_newline s.data (pyStrip_mem hm)
  show collapseNN (pyStrip (collapseWS s.data)) = _
  exact collapseNN_eq_self _ hnl

/-- Claim C10: `clean_text` is idempotent; its output has no two adjacent
whitespace characters and no leading or trailing whitespace; consequently
the blank-line collapsing step (`re.sub(r'\n\n+', '\n\n', ·)`) leaves
the result unchanged. -/
theorem clean_text_normalizes (s : String) :
    clean_text (clean_text s) = clean_text s ∧
    List.Chain' noTwoWS (clean_text s).data ∧
    (clean_text s).data.head?.all (fun c => !c.isWhitespace) = true ∧
    (clean_text s).data.getLast?.all (fun c => !c.isWhitespace) = true ∧
    collapseNN (clean_text s).data = (clean_text s).data := by
  have hnl : '\n' ∉ pyStrip (collapseWS s.data) := fun hm =>
    collapseWS_no_newline s.data (pyStrip_mem hm)
  have hdata := clean_text_data s
  have hchain : List.Chain' noTwoWS (pyStrip (collapseWS s.data)) :=
    chain'_pyStrip _ (collapseWS_chain' s.data)
  refine ⟨?_, ?_, ?_, ?_, ?_⟩
  · apply String.ext
    rw [clean_text_data (clean_text s), hdata]
    have h1 : collapseWS (pyStrip (collapseWS s.data)) =
        pyStrip (collapseWS s.data) := by
      apply collapseWS_eq_self _ _ hchain
      intro x hx hw
      rcases collapseWS_mem s.data x (pyStrip_mem hx) with h | h
      · exact h
      · rw [hw] at h; cases h
    have h2 : pyStrip (pyStrip (collapseWS s.data)) =
        pyStrip (collapseWS s.data) :=
      pyStrip_eq_self _ (pyStrip_head_false _) (pyStrip_getLast_false _)
    rw [h1, h2]
  · rw [hdata]
    exact hchain
  · rw [hdata]
    cases hh : (pyStrip (collapseWS s.data)).head? with
    | none => rfl
    | some a =>
      have := pyStrip_head_false (collapseWS s.data) a hh
      simp [Option.all, this]
  · rw [hdata]
    cases hh : (pyStrip (collapseWS s.data)).getLast? with
    | none => rfl
    | some a =>
      have := pyStrip_getLast_false (collapseWS s.data) a hh
      simp [Option.all, this]
  · rw [hdata]
    exact collapseNN_eq_self _ hnl

end Rag
